import Mathlib

/-!
# Vision-Crafter: Prompt Annotation & Feedback Reconciliation Engine

A shallow embedding of the frontend engine of the Vision-Crafter repository
(`App.js`, in its current form `src/unnamed/part_000`, together with the
earlier iterations `src/unnamed/part_001`, `src/unnamed/part_002` and
`src/frontend/src/App.js`), with theorems checking the repository's
specification against it.

Strings scanned by the occurrence scanner and cut by the segment sweep are
modelled as `List Char`; the JavaScript's `String.prototype.substring`,
`toLowerCase`, and index arithmetic become `List.drop`/`List.take`,
`Char.toLower`, and `Nat` arithmetic.  Selection state and the round
lifecycle are modelled over Lean `String`s, since they are only compared
for equality.
-/

namespace VisionCrafter

/-! ## Occurrence scanner (HighlightedPrompt, part_000 lines 20-43)

The scanner builds `new RegExp("\\b" + keyword + "\\b", "gi")` and collects
every `exec` match.  We model the regex for the case the theorems below
hypothesise — a keyword made of word characters (`\w` = ASCII alphanumerics
and underscore, which is exactly `Char.isAlphanum || (· == '_')` since
Lean's `Char.isAlphanum` is ASCII-only) and containing no regex
metacharacters.  For such a keyword, `\bkw\b` matches at `i` exactly when
the prompt contains the keyword case-insensitively at `i` (the `i` flag;
ASCII case folding, `Char.toLower`), the character before `i` (if any) is
not a word character, and the character after the match (if any) is not a
word character. -/

/-- JavaScript `\w`: ASCII letters, digits, underscore. -/
def isWordChar (c : Char) : Bool := c.isAlphanum || c == '_'

/-- Case-insensitive character comparison used by the regex `i` flag
(ASCII case folding). -/
def chEq (a b : Char) : Bool := a.toLower == b.toLower

/-- `kw` occurs case-insensitively at the head of `s`. -/
def ciHeadMatch : List Char → List Char → Bool
  | [], _ => true
  | _ :: _, [] => false
  | a :: as, b :: bs => chEq a b && ciHeadMatch as bs

/-- No word character immediately before position `i` of `p`
(the `\b` on the left of the keyword, whose first character is a word
character). -/
def noWordBefore (p : List Char) (i : Nat) : Bool :=
  i == 0 || !isWordChar (p.getD (i - 1) ' ')

/-- No word character at position `j` of `p` (the `\b` on the right of the
keyword, whose last character is a word character; `j` past the end also
qualifies, `getD` returning the non-word default). -/
def noWordAt (p : List Char) (j : Nat) : Bool :=
  !isWordChar (p.getD j ' ')

/-- The regex `\bkw\b` (with flags `gi`) matches `p` at index `i`. -/
def matchAt (p kw : List Char) (i : Nat) : Bool :=
  ciHeadMatch kw (p.drop i) && noWordBefore p i && noWordAt p (i + kw.length)

/-- One keyword occurrence, exactly the object pushed by the scanner:
`keyword` is `prompt.substring(match.index, match.index + keyword.length)`
(original casing), plus the category tag and the half-open index range. -/
structure Occurrence where
  keyword : List Char
  category : String
  startIndex : Nat
  endIndex : Nat
  deriving Repr, DecidableEq

/-- The occurrence object pushed for a match of `kw` at index `i`. -/
def mkOcc (p kw : List Char) (cat : String) (i : Nat) : Occurrence :=
  ⟨(p.drop i).take kw.length, cat, i, i + kw.length⟩

/-- The search loop of `regex.exec`: try positions `i, i+1, ...` until one
matches or the end of the string is passed.  The fuel argument — always
`p.length + 1 - i` at the entry point below, the number of remaining
candidate positions — only makes the recursion structural. -/
def findMatchFromAux (p kw : List Char) : Nat → Nat → Option Nat
  | 0, _ => none
  | fuel + 1, i =>
    if i ≤ p.length then
      if matchAt p kw i then some i else findMatchFromAux p kw fuel (i + 1)
    else none

/-- `regex.exec` starting from `lastIndex = i`: the first match position
`≥ i`, scanning left to right. -/
def findMatchFrom (p kw : List Char) (i : Nat) : Option Nat :=
  findMatchFromAux p kw (p.length + 1 - i) i

/-- The `while ((match = regex.exec(prompt)) !== null)` loop: after a match
at `j`, the regex's `lastIndex` advances to `j + kw.length`.  The fuel
argument (instantiated with `p.length + 1`, an upper bound on the number of
matches of a non-empty keyword) only makes termination structural. -/
def scanLoop (p kw : List Char) (cat : String) : Nat → Nat → List Occurrence
  | 0, _ => []
  | fuel + 1, i =>
    match findMatchFrom p kw i with
    | none => []
    | some j => mkOcc p kw cat j :: scanLoop p kw cat fuel (j + kw.length)

/-- All occurrences of one keyword in the prompt, in match order. -/
def scanKeyword (p kw : List Char) (cat : String) : List Occurrence :=
  scanLoop p kw cat (p.length + 1) 0

/-- The whole scanner (part_000 lines 20-43): for every category and every
non-empty keyword listed under it, collect all matches.  A `FeatureSet` is
the category-to-keywords mapping; the `Array.isArray` guard of the source
is vacuous here because the embedding is typed. -/
def scanOccurrences (p : List Char) (features : List (String × List (List Char))) :
    List Occurrence :=
  features.flatMap fun cf =>
    cf.2.flatMap fun kw =>
      if kw.length > 0 then scanKeyword p kw cf.1 else []

/-! ## Segment resolver (HighlightedPrompt, part_000 lines 45-89)

The source sorts with `keywordOccurrences.sort((a, b) => a.startIndex -
b.startIndex)` — a stable sort by `startIndex` only (ECMAScript
`Array.prototype.sort` is stable) — and then sweeps left to right keeping a
`lastIndex` cursor.  `List.insertionSort` with `(·.startIndex ≤
·.startIndex)` is such a stable sort. -/

/-- Stable sort by `startIndex` only — the source's comparator has no tie
break. -/
def sortByStart (l : List Occurrence) : List Occurrence :=
  l.insertionSort (fun a b => a.startIndex ≤ b.startIndex)

/-- A rendered segment: a plain-text span or a highlighted occurrence. -/
inductive Segment where
  | plain (text : List Char)
  | highlight (occ : Occurrence)
  deriving Repr, DecidableEq

/-- The text a segment renders: plain spans render their text, highlighted
spans render `occurrence.keyword`. -/
def segText : Segment → List Char
  | .plain t => t
  | .highlight o => o.keyword

/-- The sweep over the sorted occurrences (part_000 lines 49-81): emit the
plain text between `lastIndex` and the occurrence when the occurrence
starts strictly after the cursor, always emit the highlighted span, and set
the cursor to the occurrence's `endIndex`; after the loop emit the plain
tail if the cursor is short of the end.  Note the source never discards an
occurrence: one starting before the cursor still emits its span. -/
def sweep (p : List Char) : Nat → List Occurrence → List Segment
  | lastIndex, [] =>
    if lastIndex < p.length then [.plain (p.drop lastIndex)] else []
  | lastIndex, occ :: rest =>
    (if occ.startIndex > lastIndex then
      [Segment.plain ((p.drop lastIndex).take (occ.startIndex - lastIndex))]
    else []) ++ Segment.highlight occ :: sweep p occ.endIndex rest

/-- The whole body of `HighlightedPrompt` after the scan: sort, then sweep
from cursor 0.  (The source's final `parts.length === 0 && prompt` fallback
is unreachable for a non-empty prompt, since the sweep over an empty
occurrence list already emits the whole prompt.) -/
def resolveSegments (p : List Char) (occs : List Occurrence) : List Segment :=
  sweep p 0 (sortByStart occs)

/-! ## Selection state (part_000 lines 203-223)

`handleImageSelect` and `handleFeatureSelect` are the two toggle handlers;
both use `includes` / `filter(x => x !== v)` / spread-append on the
selection arrays. -/

/-- Toggle a prompt in `selectedImages` (part_000 lines 203-212). -/
def handleImageSelect (selectedImages : List String) (prompt : String) : List String :=
  if selectedImages.contains prompt then
    selectedImages.filter (fun p => p != prompt)
  else
    selectedImages ++ [prompt]

/-- Toggle a keyword in `selectedKeywords` (part_000 lines 215-223). -/
def handleFeatureSelect (selectedKeywords : List String) (keyword : String) : List String :=
  if selectedKeywords.contains keyword then
    selectedKeywords.filter (fun k => k != keyword)
  else
    selectedKeywords ++ [keyword]

/-! ## Round lifecycle (generateImages, part_000 lines 106-200)

`generateImages` validates, issues one `fetch`, and either commits the
response (replacing `results` and the per-prompt feature lookup and
clearing both selection sets) or surfaces an error leaving all other state
untouched.  The network outcome is passed in explicitly; the `Bool` in the
result records whether the request was issued at all (the validation
failure path returns before `fetch`). -/

/-- A per-prompt feature set as carried by the response: category name to
keyword list. -/
def FeatureSetS := List (String × List String)
  deriving Repr, DecidableEq

/-- One committed result, `{prompt, url}`. -/
structure ResultItem where
  prompt : String
  url : String
  deriving Repr, DecidableEq

/-- One entry of the response's `prompts` array.  The current engine
(part_000) expects `structured` entries `{text, features}`; the alternate
response shape instead carries bare prompt strings (`plainText`) together
with an index-keyed `extracted_features` map. -/
inductive PromptEntry where
  | structured (text : String) (features : Option FeatureSetS)
  | plainText (s : String)
  deriving Repr, DecidableEq

/-- `promptObj.text` as read by part_000 line 174.  A bare string entry has
no `text` property, so JavaScript reads `undefined` and, used as an object
key, coerces it to the string `"undefined"`. -/
def entryText : PromptEntry → String
  | .structured t _ => t
  | .plainText _ => "undefined"

/-- `promptObj.features || {}` as read by part_000 line 174: a missing
`features` property yields the empty feature set. -/
def entryFeatures : PromptEntry → FeatureSetS
  | .structured _ f => f.getD []
  | .plainText _ => []

/-- A parsed response body.  `Option` models JavaScript field presence
(`data.results && data.prompts` tests presence; an empty array is truthy).
`extractedFeatures` is the `extracted_features` index-keyed map of the
alternate shape, which part_000 never reads. -/
structure ResponseBody where
  results : Option (List ResultItem)
  prompts : Option (List PromptEntry)
  extractedFeatures : Option (List (Nat × FeatureSetS))
  deriving Repr, DecidableEq

/-- The outcome of the single `fetch` call. -/
inductive FetchOutcome where
  | transportError (msg : String)
  | httpError (msg : String)
  | ok (body : ResponseBody)
  deriving Repr, DecidableEq

/-- JavaScript object assignment `m[k] = v`: overwrite the entry if the key
is present, append it otherwise. -/
def upsert (m : List (String × FeatureSetS)) (k : String) (v : FeatureSetS) :
    List (String × FeatureSetS) :=
  if m.any (fun e => e.1 == k) then
    m.map (fun e => if e.1 == k then (k, v) else e)
  else m ++ [(k, v)]

/-- Property read `m[k]`. -/
def lookupFeat (m : List (String × FeatureSetS)) (k : String) : Option FeatureSetS :=
  (m.find? (fun e => e.1 == k)).map (·.2)

/-- part_000 lines 167-175: `featuresByPrompt[promptObj.text] =
promptObj.features || {}` over `data.prompts` in order. -/
def featuresByPrompt000 (ps : List PromptEntry) : List (String × FeatureSetS) :=
  ps.foldl (fun m e => upsert m (entryText e) (entryFeatures e)) []

/-- part_001 lines 156-168 (the earlier engine): pair the flat
`data.prompts` string list positionally with the index-keyed
`data.extracted_features`, defaulting to the empty feature set when an
index is missing (`hasOwnProperty` guard). -/
def featuresByPrompt001 (prompts : List String) (ef : List (Nat × FeatureSetS)) :
    List (String × FeatureSetS) :=
  (prompts.enum).foldl
    (fun m pi =>
      upsert m pi.2 (((ef.find? (fun e => e.1 == pi.1)).map (·.2)).getD []))
    []

/-- The mutable cells of the component that the round touches. -/
structure AppState where
  description : String
  results : List ResultItem
  error : Option String
  selectedImages : List String
  extractedFeatures : List (String × FeatureSetS)
  selectedKeywords : List String
  deriving Repr, DecidableEq

/-- part_000 line 127: `!description && selectedImages.length === 0 &&
selectedKeywords.length === 0`.  `!description` is true exactly for the
empty string — a whitespace-only description is truthy. -/
def isInitialAttempt (s : AppState) : Bool :=
  s.description == "" && s.selectedImages.isEmpty && s.selectedKeywords.isEmpty

/-- One run of `generateImages` (part_000 lines 106-200) given the fetch
outcome.  Returns the new state and whether the request was issued; the
validation-failure path returns before `fetch`, so there the outcome is
unused.  `setLoading` is omitted (always back to `false` in `finally`). -/
def generateImages (s : AppState) (outcome : FetchOutcome) : AppState × Bool :=
  let s0 := { s with error := none }
  if isInitialAttempt s0 then
    ({ s0 with error := some "Please enter a description to start generating images." },
     false)
  else
    match outcome with
    | .transportError msg =>
      ({ s0 with error := some ("Error generating images: " ++ msg) }, true)
    | .httpError msg =>
      ({ s0 with error := some ("Error generating images: " ++ msg) }, true)
    | .ok body =>
      match body.results, body.prompts with
      | some rs, some ps =>
        ({ s0 with
            results := rs
            extractedFeatures := featuresByPrompt000 ps
            selectedImages := []
            selectedKeywords := [] }, true)
      | _, _ =>
        ({ s0 with
            error := some ("Error generating images: " ++
              "Invalid response format: Missing results or prompts in backend response.") },
         true)

/-- A failed round in the sense of the spec: transport error, non-success
status, or a body missing `results`/`prompts`. -/
def roundFailed (outcome : FetchOutcome) : Bool :=
  match outcome with
  | .transportError _ => true
  | .httpError _ => true
  | .ok body => !(body.results.isSome && body.prompts.isSome)

/-- A well-formed occurrence of `p`: a non-degenerate in-bounds range whose
recorded surface text is the corresponding substring of the prompt. -/
def occValid (p : List Char) (o : Occurrence) : Prop :=
  o.startIndex < o.endIndex ∧ o.endIndex ≤ p.length ∧
  o.keyword = (p.drop o.startIndex).take (o.endIndex - o.startIndex)

instance (p : List Char) (o : Occurrence) : Decidable (occValid p o) := by
  unfold occValid
  infer_instance

/-- Two occurrences over non-overlapping ranges. -/
def occDisjoint (a b : Occurrence) : Prop :=
  a.endIndex ≤ b.startIndex ∨ b.endIndex ≤ a.startIndex

instance (a b : Occurrence) : Decidable (occDisjoint a b) := by
  unfold occDisjoint
  infer_instance

/-! ## Theorems -/

/-- C1: the spec claims the resolver sorts with a descending-length tie
break and discards any occurrence starting before the cursor, so that of
two occurrences sharing a start index only the longer survives.  The code
does neither: at the concrete input `"catfish"` with occurrences
`[0,3)`/`"cat"` and `[0,7)`/`"catfish"` (both starting at 0), the emitted
segment list keeps both highlighted spans — the shorter one first (stable
sort by start index only) and the longer one immediately after it, even
though it starts before the cursor. -/
theorem c1_same_start_occurrences_both_kept :
    resolveSegments "catfish".toList
        [⟨"cat".toList, "subject", 0, 3⟩, ⟨"catfish".toList, "subject", 0, 7⟩] =
      [Segment.highlight ⟨"cat".toList, "subject", 0, 3⟩,
       Segment.highlight ⟨"catfish".toList, "subject", 0, 7⟩] := by
  decide

/-- C2: the spec claims the resolver's segments always concatenate to
exactly the prompt, for any occurrence set including overlapping ones.  At
the overlapping input of two occurrences both starting at index 0 of
`"catfish"`, the code's segments concatenate to `"catcatfish"`: the text of
the span `[0,3)` is duplicated, refuting the partition property. -/
theorem c2_overlapping_occurrences_break_concatenation :
    ((resolveSegments "catfish".toList
        [⟨"cat".toList, "subject", 0, 3⟩, ⟨"catfish".toList, "subject", 0, 7⟩]).map
      segText).flatten = "catcatfish".toList ∧
    "catcatfish".toList ≠ "catfish".toList := by
  decide

/-- The two toggle handlers are the same algorithm. -/
theorem handleFeatureSelect_eq (S : List String) (v : String) :
    handleFeatureSelect S v = handleImageSelect S v := rfl

/-- A toggle on a member removes it (all copies, as `filter` does). -/
theorem toggle_mem (S : List String) (v : String) (hv : v ∈ S) :
    handleImageSelect S v = S.filter (fun p => p != v) := by
  have h : S.contains v = true := List.elem_iff.mpr hv
  unfold handleImageSelect
  rw [if_pos h]

/-- A toggle on a non-member appends it. -/
theorem toggle_not_mem (S : List String) (v : String) (hv : v ∉ S) :
    handleImageSelect S v = S ++ [v] := by
  have h : S.contains v = false := by
    rw [← Bool.not_eq_true]
    exact fun hc => hv (List.elem_iff.mp hc)
  unfold handleImageSelect
  rw [if_neg]
  rw [h]
  simp

/-- Toggling twice is the identity on membership. -/
theorem toggle_toggle_mem (S : List String) (v x : String) :
    x ∈ handleImageSelect (handleImageSelect S v) v ↔ x ∈ S := by
  by_cases hv : v ∈ S
  · rw [toggle_mem S v hv]
    rw [toggle_not_mem _ v (by simp)]
    simp only [List.mem_append, List.mem_filter, List.mem_singleton]
    constructor
    · rintro (⟨hx, _⟩ | rfl)
      · exact hx
      · exact hv
    · intro hx
      by_cases hxv : x = v
      · exact Or.inr hxv
      · exact Or.inl ⟨hx, by simpa using hxv⟩
  · rw [toggle_not_mem S v hv]
    rw [toggle_mem _ v (by simp)]
    simp only [List.mem_filter, List.mem_append, List.mem_singleton]
    constructor
    · rintro ⟨hx | rfl, hne⟩
      · exact hx
      · simp at hne
    · intro hx
      refine ⟨Or.inl hx, ?_⟩
      have hne : x ≠ v := fun h => hv (h ▸ hx)
      simpa using hne

/-- C7: a single toggle removes the value when present and adds it when
absent, and toggling the same value twice returns the original selection
set (as a set, i.e. with the same members) — for both the image-selection
handler and the keyword-selection handler, which are the same list
algorithm over `includes`/`filter`/append. -/
theorem c7_toggle_involution (S : List String) (v x : String) :
    (x ∈ handleImageSelect (handleImageSelect S v) v ↔ x ∈ S) ∧
    (x ∈ handleFeatureSelect (handleFeatureSelect S v) v ↔ x ∈ S) ∧
    (v ∈ S → handleImageSelect S v = S.filter (fun p => p != v)) ∧
    (v ∉ S → handleImageSelect S v = S ++ [v]) ∧
    (v ∈ S → handleFeatureSelect S v = S.filter (fun k => k != v)) ∧
    (v ∉ S → handleFeatureSelect S v = S ++ [v]) := by
  refine ⟨toggle_toggle_mem S v x, ?_, toggle_mem S v, toggle_not_mem S v, ?_, ?_⟩
  · rw [handleFeatureSelect_eq, handleFeatureSelect_eq]
    exact toggle_toggle_mem S v x
  · rw [handleFeatureSelect_eq]
    exact toggle_mem S v
  · rw [handleFeatureSelect_eq]
    exact toggle_not_mem S v

/-- Witness for C7 at a concrete selection set and value. -/
theorem c7_witness :
    ("cat" : String) ∈ ["cat", "dog"] ∧
    (("dog" : String) ∈
        handleImageSelect (handleImageSelect ["cat", "dog"] "cat") "cat" ↔
      ("dog" : String) ∈ ["cat", "dog"]) ∧
    handleImageSelect ["cat", "dog"] "cat" = ["dog"] := by
  have h := c7_toggle_involution ["cat", "dog"] "cat" "dog"
  refine ⟨by decide, h.1, ?_⟩
  rw [h.2.2.1 (by decide)]
  decide

/-- C3: on a failed round — transport error, non-success status, or a body
missing `results`/`prompts` — `generateImages` leaves `results`, the
per-prompt feature lookup, and both selection sets exactly as they were
before the round, and surfaces an error message.  (The validation
short-circuit path trivially preserves them too, so the hypothesis is just
that the outcome, had the request been issued, is a failing one.) -/
theorem c3_failure_preserves_state (s : AppState) (outcome : FetchOutcome)
    (h : roundFailed outcome = true) :
    (generateImages s outcome).1.results = s.results ∧
    (generateImages s outcome).1.extractedFeatures = s.extractedFeatures ∧
    (generateImages s outcome).1.selectedImages = s.selectedImages ∧
    (generateImages s outcome).1.selectedKeywords = s.selectedKeywords ∧
    ((generateImages s outcome).1.error).isSome = true := by
  unfold generateImages
  by_cases hi : isInitialAttempt { s with error := none } = true
  · simp [hi]
  · rw [if_neg hi]
    cases outcome with
    | transportError msg => simp
    | httpError msg => simp
    | ok body =>
      cases hr : body.results with
      | none => simp [hr]
      | some rs =>
        cases hp : body.prompts with
        | none => simp [hr, hp]
        | some ps =>
          exfalso
          simp [roundFailed, hr, hp] at h

/-- Witness for C3: a concrete failed round (non-success status) at a
concrete state keeps all four cells and surfaces an error. -/
theorem c3_witness :
    roundFailed (FetchOutcome.httpError "Failed to generate images: 500") = true ∧
    (generateImages
        ⟨"a dog", [⟨"old prompt", "u"⟩], none, ["old prompt"], [("old prompt", [])],
          ["fluffy"]⟩
        (FetchOutcome.httpError "Failed to generate images: 500")).1.results =
      [⟨"old prompt", "u"⟩] := by
  refine ⟨rfl, ?_⟩
  have h := c3_failure_preserves_state
    ⟨"a dog", [⟨"old prompt", "u"⟩], none, ["old prompt"], [("old prompt", [])], ["fluffy"]⟩
    (FetchOutcome.httpError "Failed to generate images: 500") rfl
  exact h.1

/-- C6: on a successful round — body carrying both `results` and `prompts`
— the commit stores the new results, replaces the per-prompt feature lookup
with the one built from the response, and resets both selection sets to
empty, whatever they contained before. -/
theorem c6_commit_resets_selections (s : AppState) (body : ResponseBody)
    (rs : List ResultItem) (ps : List PromptEntry)
    (hr : body.results = some rs) (hp : body.prompts = some ps)
    (hv : isInitialAttempt { s with error := none } = false) :
    (generateImages s (FetchOutcome.ok body)).1.selectedImages = [] ∧
    (generateImages s (FetchOutcome.ok body)).1.selectedKeywords = [] ∧
    (generateImages s (FetchOutcome.ok body)).1.results = rs ∧
    (generateImages s (FetchOutcome.ok body)).1.extractedFeatures =
      featuresByPrompt000 ps := by
  unfold generateImages
  rw [if_neg (by rw [hv]; exact fun hc => Bool.noConfusion hc)]
  simp [hr, hp]

/-- Witness for C6: a concrete successful round resets concretely non-empty
selections. -/
theorem c6_witness :
    (generateImages
        ⟨"a dog", [], none, ["liked prompt"], [], ["wavy", "sketch"]⟩
        (FetchOutcome.ok
          ⟨some [⟨"new prompt", "u2"⟩],
           some [PromptEntry.structured "new prompt" (some [("style", ["wavy"])])],
           none⟩)).1.selectedImages = [] ∧
    (generateImages
        ⟨"a dog", [], none, ["liked prompt"], [], ["wavy", "sketch"]⟩
        (FetchOutcome.ok
          ⟨some [⟨"new prompt", "u2"⟩],
           some [PromptEntry.structured "new prompt" (some [("style", ["wavy"])])],
           none⟩)).1.selectedKeywords = [] := by
  have h := c6_commit_resets_selections
    ⟨"a dog", [], none, ["liked prompt"], [], ["wavy", "sketch"]⟩
    ⟨some [⟨"new prompt", "u2"⟩],
     some [PromptEntry.structured "new prompt" (some [("style", ["wavy"])])], none⟩
    [⟨"new prompt", "u2"⟩]
    [PromptEntry.structured "new prompt" (some [("style", ["wavy"])])]
    rfl rfl (by decide)
  exact ⟨h.1, h.2.1⟩

/-- C5 counterexample: the claim says a blank (whitespace-only) description
with empty selections fails validation and issues no request.  At the
concrete state with description `" "` and both selections empty, the code's
`!description` test is false (a whitespace-only string is truthy in
JavaScript), so the request IS issued. -/
theorem c5_blank_description_issues_request :
    (" ".toList.all Char.isWhitespace = true ∧ (" " : String) ≠ "") ∧
    (generateImages ⟨" ", [], none, [], [], []⟩
        (FetchOutcome.transportError "network down")).2 = true := by
  exact ⟨⟨by decide, by decide⟩, rfl⟩

/-- C5 (amended): `generateImages` fails validation — surfacing an error
and issuing no request — exactly when the description is the EMPTY string
and both selection sets are empty; a whitespace-only description counts as
present. -/
theorem c5_validation_exactly_empty (s : AppState) (outcome : FetchOutcome) :
    ((generateImages s outcome).2 = false ↔
      s.description = "" ∧ s.selectedImages = [] ∧ s.selectedKeywords = []) ∧
    ((generateImages s outcome).2 = false →
      ((generateImages s outcome).1.error).isSome = true) := by
  have hiff : isInitialAttempt { s with error := none } = true ↔
      s.description = "" ∧ s.selectedImages = [] ∧ s.selectedKeywords = [] := by
    simp [isInitialAttempt, List.isEmpty_iff, and_assoc]
  constructor
  · unfold generateImages
    by_cases hi : isInitialAttempt { s with error := none } = true
    · simp only [hi, if_true]
      simpa using hiff.mp hi
    · rw [if_neg hi]
      have : ¬(s.description = "" ∧ s.selectedImages = [] ∧ s.selectedKeywords = []) :=
        fun hc => hi (hiff.mpr hc)
      cases outcome with
      | transportError msg => simpa using this
      | httpError msg => simpa using this
      | ok body =>
        cases hr : body.results with
        | none => simpa [hr] using this
        | some rs =>
          cases hp : body.prompts with
          | none => simpa [hr, hp] using this
          | some ps => simpa [hr, hp] using this
  · unfold generateImages
    by_cases hi : isInitialAttempt { s with error := none } = true
    · simp [hi]
    · rw [if_neg hi]
      cases outcome with
      | transportError msg => simp
      | httpError msg => simp
      | ok body =>
        cases hr : body.results with
        | none => simp [hr]
        | some rs =>
          cases hp : body.prompts with
          | none => simp [hr, hp]
          | some ps => simp [hr, hp]

/-- Witness for C5 (amended): at the empty description with empty
selections, no request is issued and an error is surfaced. -/
theorem c5_witness :
    (generateImages ⟨"", [], none, [], [], []⟩
        (FetchOutcome.transportError "never sent")).2 = false ∧
    ((generateImages ⟨"", [], none, [], [], []⟩
        (FetchOutcome.transportError "never sent")).1.error).isSome = true := by
  have h := c5_validation_exactly_empty ⟨"", [], none, [], [], []⟩
    (FetchOutcome.transportError "never sent")
  have h2 : (generateImages ⟨"", [], none, [], [], []⟩
      (FetchOutcome.transportError "never sent")).2 = false :=
    h.1.mpr ⟨rfl, rfl, rfl⟩
  exact ⟨h2, h.2 h2⟩

/-- Upserting a key absent from the map appends the binding. -/
theorem upsert_fresh (m : List (String × FeatureSetS)) (k : String) (v : FeatureSetS)
    (h : ∀ e ∈ m, e.1 ≠ k) : upsert m k v = m ++ [(k, v)] := by
  unfold upsert
  rw [if_neg]
  simp only [List.any_eq_true, not_exists, not_and]
  intro e he hc
  exact h e he (by simpa using hc)

/-- Folding `upsert` over bindings whose keys are fresh and pairwise
distinct just appends them. -/
theorem foldl_upsert_append (entries : List (String × FeatureSetS)) :
    ∀ m : List (String × FeatureSetS), ((m ++ entries).map Prod.fst).Nodup →
    entries.foldl (fun acc e => upsert acc e.1 e.2) m = m ++ entries := by
  induction entries with
  | nil => intro m _; simp
  | cons e rest ih =>
    intro m h
    have h' := h
    rw [List.map_append, List.nodup_append] at h'
    obtain ⟨_, _, hdisj⟩ := h'
    have hfresh : ∀ x ∈ m, x.1 ≠ e.1 := by
      intro x hx hc
      exact hdisj (List.mem_map_of_mem Prod.fst hx) (by simp [hc])
    rw [List.foldl_cons, upsert_fresh m e.1 e.2 hfresh]
    have heta : ((e.1, e.2) : String × FeatureSetS) = e := rfl
    rw [heta]
    have hN : (((m ++ [e]) ++ rest).map Prod.fst).Nodup := by
      rw [List.append_assoc]
      simpa using h
    rw [ih (m ++ [e]) hN]
    simp

/-- With pairwise distinct keys, `lookupFeat` returns the stored value. -/
theorem lookupFeat_of_mem (l : List (String × FeatureSetS)) (t : String) (v : FeatureSetS)
    (hN : (l.map Prod.fst).Nodup) (hm : (t, v) ∈ l) :
    lookupFeat l t = some v := by
  induction l with
  | nil => cases hm
  | cons a tl ih =>
    rw [List.map_cons, List.nodup_cons] at hN
    obtain ⟨ha, hN'⟩ := hN
    rcases List.mem_cons.mp hm with heq | htl
    · rw [← heq]
      simp [lookupFeat]
    · have ht : t ∈ tl.map Prod.fst := by
        have := List.mem_map_of_mem Prod.fst htl
        simpa using this
      have hne : (a.1 == t) = false := by
        rw [beq_eq_false_iff_ne]
        exact fun hc => ha (hc ▸ ht)
      unfold lookupFeat
      rw [List.find?_cons_of_neg _ (by simp [hne])]
      exact ih hN' htl

/-- C8 counterexample: the claim says the engine accepts both success
shapes and normalizes either into a `promptText -> FeatureSet` lookup.
Feeding the alternate shape — a flat `prompts: ["p"]` list with an
index-keyed `extracted_features` — to the current engine commits a lookup
with NO entry for the prompt text `"p"` (the bare string entry's missing
`.text` is coerced to the key `"undefined"` and `extracted_features` is
ignored), while the earlier engine's normalizer does map `"p"` to its
features: no single version handles both shapes. -/
theorem c8_alternate_shape_not_normalized :
    lookupFeat
        ((generateImages ⟨"a dog", [], none, [], [], []⟩
            (FetchOutcome.ok
              ⟨some [⟨"p", "u"⟩], some [PromptEntry.plainText "p"],
               some [(0, [("style", ["impressionist"])])]⟩)).1.extractedFeatures)
        "p" = none ∧
    lookupFeat (featuresByPrompt001 ["p"] [(0, [("style", ["impressionist"])])]) "p" =
      some [("style", ["impressionist"])] := by
  constructor
  · rfl
  · rfl

/-- C8 (amended): each engine version normalizes exactly one success
shape into the `promptText -> FeatureSet` lookup: the current engine
(part_000) maps each `{text, features}` entry of the combined shape to
`text -> features`, and the earlier engine (part_001) positionally pairs
the flat prompt list of the alternate shape with the index-keyed
`extracted_features`; neither accepts the other's shape (stated here for
pairwise-distinct prompt texts, the invariant the spec assumes within one
round). -/
theorem c8_each_version_normalizes_its_shape :
    (∀ (ps : List PromptEntry) (t : String) (f : Option FeatureSetS),
      (ps.map entryText).Nodup → PromptEntry.structured t f ∈ ps →
      lookupFeat (featuresByPrompt000 ps) t = some (f.getD [])) ∧
    (∀ (prompts : List String) (ef : List (Nat × FeatureSetS)) (i : Nat)
      (h : i < prompts.length), prompts.Nodup →
      lookupFeat (featuresByPrompt001 prompts ef) prompts[i] =
        some (((ef.find? (fun e => e.1 == i)).map (·.2)).getD [])) := by
  constructor
  · intro ps t f hN hm
    have hfold : featuresByPrompt000 ps =
        (ps.map (fun e => (entryText e, entryFeatures e))).foldl
          (fun acc e => upsert acc e.1 e.2) [] := by
      rw [List.foldl_map]
      rfl
    have hkeys : ((ps.map (fun e => (entryText e, entryFeatures e))).map Prod.fst).Nodup := by
      rw [List.map_map]
      exact hN
    rw [hfold, foldl_upsert_append _ [] (by rw [List.nil_append]; exact hkeys)]
    simp only [List.nil_append]
    exact lookupFeat_of_mem _ t (f.getD []) hkeys
      (by
        have := List.mem_map_of_mem (fun e => (entryText e, entryFeatures e)) hm
        simpa [entryText, entryFeatures] using this)
  · intro prompts ef i h hN
    obtain ⟨entries, hent⟩ :
        ∃ entries : List (String × FeatureSetS),
          prompts.enum.map
            (fun pi : Nat × String =>
              (pi.2, ((ef.find? (fun e => e.1 == pi.1)).map (·.2)).getD [])) = entries :=
      ⟨_, rfl⟩
    have hfold : featuresByPrompt001 prompts ef =
        entries.foldl (fun acc e => upsert acc e.1 e.2) [] := by
      rw [← hent, List.foldl_map]
      rfl
    have hkeys : (entries.map Prod.fst).Nodup := by
      rw [← hent, List.map_map]
      show (prompts.enum.map Prod.snd).Nodup
      rw [List.enum_map_snd]
      exact hN
    have hmem2 : (prompts[i],
        ((ef.find? (fun e => e.1 == i)).map (·.2)).getD []) ∈ entries := by
      rw [← hent]
      have hlen : i < prompts.enum.length := by simpa [List.enum_length] using h
      have hm := List.getElem_mem hlen
      rw [List.getElem_enum] at hm
      have := List.mem_map_of_mem
        (fun pi : Nat × String =>
          (pi.2, ((ef.find? (fun e => e.1 == pi.1)).map (·.2)).getD [])) hm
      simpa using this
    rw [hfold, foldl_upsert_append entries [] (by rw [List.nil_append]; exact hkeys),
      List.nil_append]
    exact lookupFeat_of_mem _ _ _ hkeys hmem2

/-- Witness for C8 (amended): each normalizer at a concrete response of its
own shape. -/
theorem c8_witness :
    lookupFeat (featuresByPrompt000
        [PromptEntry.structured "p" (some [("style", ["wavy"])]),
         PromptEntry.structured "q" none]) "q" = some [] ∧
    lookupFeat (featuresByPrompt001 ["p", "q"] [(0, [("mood", ["calm"])])]) "p" =
      some [("mood", ["calm"])] := by
  constructor
  · exact c8_each_version_normalizes_its_shape.1
      [PromptEntry.structured "p" (some [("style", ["wavy"])]),
       PromptEntry.structured "q" none] "q" none (by decide) (by decide)
  · have := c8_each_version_normalizes_its_shape.2 ["p", "q"]
      [(0, [("mood", ["calm"])])] 0 (by decide) (by decide)
    simpa using this

/-- The sweep invariant: over well-formed, pairwise disjoint occurrences
sorted by start index, all starting at or after the cursor, the emitted
segments concatenate to the suffix of the prompt from the cursor. -/
theorem sweep_flatten (p : List Char) :
    ∀ (l : List Occurrence) (c : Nat),
      (∀ o ∈ l, occValid p o ∧ c ≤ o.startIndex) →
      l.Pairwise occDisjoint →
      l.Pairwise (fun a b => a.startIndex ≤ b.startIndex) →
      ((sweep p c l).map segText).flatten = p.drop c := by
  intro l
  induction l with
  | nil =>
    intro c _ _ _
    unfold sweep
    by_cases hc : c < p.length
    · simp [hc, segText]
    · rw [if_neg hc]
      simp only [List.map_nil, List.flatten_nil]
      exact (List.drop_eq_nil_of_le (by omega)).symm
  | cons o rest ih =>
    intro c hv hd hs
    obtain ⟨⟨hlt, hle, hkw⟩, hc⟩ := hv o (List.mem_cons_self o rest)
    rw [List.pairwise_cons] at hd hs
    obtain ⟨hd1, hd2⟩ := hd
    obtain ⟨hs1, hs2⟩ := hs
    have hrest : ∀ b ∈ rest, occValid p b ∧ o.endIndex ≤ b.startIndex := by
      intro b hb
      obtain ⟨hvb, _⟩ := hv b (List.mem_cons_of_mem o hb)
      refine ⟨hvb, ?_⟩
      rcases hd1 b hb with h1 | h2
      · exact h1
      · obtain ⟨hbl, _, _⟩ := hvb
        have hsb := hs1 b hb
        omega
    have hih := ih o.endIndex hrest hd2 hs2
    have hmid : (p.drop o.startIndex).take (o.endIndex - o.startIndex) ++
        p.drop o.endIndex = p.drop o.startIndex := by
      have hdd : p.drop o.endIndex =
          (p.drop o.startIndex).drop (o.endIndex - o.startIndex) := by
        rw [List.drop_drop]
        congr 1
        omega
      rw [hdd, List.take_append_drop]
    by_cases hgt : o.startIndex > c
    · simp only [sweep, if_pos hgt, List.map_append, List.flatten_append, List.map_cons,
        List.flatten_cons, segText, List.map_nil, List.flatten_nil, List.append_nil]
      rw [hih, hkw, hmid]
      have h2 : p.drop o.startIndex = (p.drop c).drop (o.startIndex - c) := by
        rw [List.drop_drop]
        congr 1
        omega
      rw [h2, List.take_append_drop]
    · simp only [sweep, if_neg hgt, List.map_append, List.flatten_append, List.map_cons,
        List.flatten_cons, segText, List.map_nil, List.flatten_nil, List.nil_append]
      rw [hih, hkw, hmid]
      have hceq : o.startIndex = c := by omega
      rw [hceq]

/-- C9: if the occurrences fed to the segment-rendering sweep are
well-formed and pairwise non-overlapping, the emitted plain and highlighted
segments concatenate to exactly the prompt; and for an empty occurrence
list the output is the whole prompt as a single plain segment, with no
segments at all for an empty prompt. -/
theorem c9_disjoint_occurrences_partition (p : List Char) (occs : List Occurrence)
    (hv : ∀ o ∈ occs, occValid p o)
    (hd : occs.Pairwise occDisjoint) :
    ((resolveSegments p occs).map segText).flatten = p ∧
    resolveSegments p [] = if p.length = 0 then [] else [Segment.plain p] := by
  constructor
  · unfold resolveSegments
    have hperm : List.Perm (sortByStart occs) occs := by
      unfold sortByStart
      exact List.perm_insertionSort _ occs
    have hv' : ∀ o ∈ sortByStart occs, occValid p o ∧ 0 ≤ o.startIndex :=
      fun o ho => ⟨hv o (hperm.subset ho), Nat.zero_le _⟩
    have hd' : (sortByStart occs).Pairwise occDisjoint :=
      hd.perm hperm.symm (fun hab => hab.symm)
    have hs' : (sortByStart occs).Pairwise (fun a b => a.startIndex ≤ b.startIndex) := by
      haveI ht : IsTotal Occurrence (fun a b => a.startIndex ≤ b.startIndex) :=
        ⟨fun a b => Nat.le_total _ _⟩
      haveI htr : IsTrans Occurrence (fun a b => a.startIndex ≤ b.startIndex) :=
        ⟨fun _ _ _ => Nat.le_trans⟩
      exact List.sorted_insertionSort _ occs
    have h := sweep_flatten p (sortByStart occs) 0 hv' hd' hs'
    simpa using h
  · show sweep p 0 (sortByStart []) = _
    unfold sortByStart
    rw [show List.insertionSort (fun a b : Occurrence =>
      a.startIndex ≤ b.startIndex) [] = [] from rfl]
    unfold sweep
    by_cases hp0 : p.length = 0
    · rw [if_pos hp0, if_neg (by omega)]
    · rw [if_neg hp0, if_pos (by omega)]
      rw [List.drop_zero]

/-- Witness for C9: the spec's own example occurrence on a concrete
prompt. -/
theorem c9_witness :
    ((resolveSegments "A cat".toList [⟨"cat".toList, "subject", 2, 5⟩]).map
      segText).flatten = "A cat".toList ∧
    resolveSegments "A cat".toList [] = [Segment.plain "A cat".toList] := by
  have h := c9_disjoint_occurrences_partition "A cat".toList
    [⟨"cat".toList, "subject", 2, 5⟩] (by decide) (by decide)
  refine ⟨h.1, ?_⟩
  rw [h.2, if_neg (by decide)]

/-! ### Character-level facts about ASCII case folding -/

theorem toNat_ofNatAux (n : Nat) (h : n.isValidChar) :
    (Char.ofNatAux n h).toNat = n := by
  show (BitVec.ofNatLt n _).toNat = n
  exact BitVec.toNat_ofNatLt n _

/-- `\w` membership in terms of code points. -/
theorem isWordChar_iff (c : Char) :
    isWordChar c = true ↔
      (65 ≤ c.toNat ∧ c.toNat ≤ 90) ∨ (97 ≤ c.toNat ∧ c.toNat ≤ 122) ∨
      (48 ≤ c.toNat ∧ c.toNat ≤ 57) ∨ c.toNat = 95 := by
  unfold isWordChar Char.isAlphanum Char.isAlpha Char.isUpper Char.isLower Char.isDigit
  simp only [Bool.or_eq_true, Bool.and_eq_true, decide_eq_true_eq, beq_iff_eq]
  constructor
  · rintro (((⟨h1, h2⟩ | ⟨h1, h2⟩) | ⟨h1, h2⟩) | h)
    · exact Or.inl ⟨h1, h2⟩
    · exact Or.inr (Or.inl ⟨h1, h2⟩)
    · exact Or.inr (Or.inr (Or.inl ⟨h1, h2⟩))
    · subst h; exact Or.inr (Or.inr (Or.inr rfl))
  · rintro (⟨h1, h2⟩ | ⟨h1, h2⟩ | ⟨h1, h2⟩ | h)
    · exact Or.inl (Or.inl (Or.inl ⟨h1, h2⟩))
    · exact Or.inl (Or.inl (Or.inr ⟨h1, h2⟩))
    · exact Or.inl (Or.inr ⟨h1, h2⟩)
    · exact Or.inr (Char.ext (UInt32.ext h))

theorem toNat_toLower (c : Char) :
    c.toLower.toNat =
      if 65 ≤ c.toNat ∧ c.toNat ≤ 90 then c.toNat + 32 else c.toNat := by
  show (if c.toNat ≥ 65 ∧ c.toNat ≤ 90 then Char.ofNat (c.toNat + 32) else c).toNat = _
  by_cases h : 65 ≤ c.toNat ∧ c.toNat ≤ 90
  · rw [if_pos h, if_pos h]
    have hvalid : (c.toNat + 32).isValidChar := Or.inl (by omega)
    rw [Char.ofNat, dif_pos hvalid]
    exact toNat_ofNatAux _ hvalid
  · rw [if_neg h, if_neg h]

/-- ASCII case folding maps word characters to word characters and
non-word characters to non-word characters. -/
theorem isWordChar_toLower (c : Char) : isWordChar c.toLower = isWordChar c := by
  have h1 := isWordChar_iff c.toLower
  have h2 := isWordChar_iff c
  have h3 := toNat_toLower c
  by_cases h : 65 ≤ c.toNat ∧ c.toNat ≤ 90
  · rw [if_pos h] at h3
    have ha : isWordChar c.toLower = true := h1.mpr (Or.inr (Or.inl (by omega)))
    have hb : isWordChar c = true := h2.mpr (Or.inl h)
    rw [ha, hb]
  · rw [if_neg h] at h3
    rw [Bool.eq_iff_iff, h1, h2, h3]

/-- Characters equal up to case are word characters together. -/
theorem chEq_isWordChar (a b : Char) (h : chEq a b = true) :
    isWordChar a = isWordChar b := by
  have heq : a.toLower = b.toLower := by
    unfold chEq at h
    exact beq_iff_eq.mp h
  rw [← isWordChar_toLower a, ← isWordChar_toLower b, heq]

/-! ### Facts about the case-insensitive head match -/

theorem ciHeadMatch_length (kw : List Char) :
    ∀ s, ciHeadMatch kw s = true → kw.length ≤ s.length := by
  induction kw with
  | nil => intro s _; simp
  | cons a as ih =>
    intro s h
    cases s with
    | nil => simp [ciHeadMatch] at h
    | cons b bs =>
      simp only [ciHeadMatch, Bool.and_eq_true] at h
      have := ih bs h.2
      simp only [List.length_cons]
      omega

theorem ciHeadMatch_toLower (kw : List Char) :
    ∀ s, ciHeadMatch kw s = true →
      (s.take kw.length).map Char.toLower = kw.map Char.toLower := by
  induction kw with
  | nil => intro s _; simp
  | cons a as ih =>
    intro s h
    cases s with
    | nil => simp [ciHeadMatch] at h
    | cons b bs =>
      simp only [ciHeadMatch, Bool.and_eq_true] at h
      obtain ⟨h1, h2⟩ := h
      have hab : b.toLower = a.toLower := by
        unfold chEq at h1
        exact (beq_iff_eq.mp h1).symm
      simp only [List.length_cons, List.take_succ_cons, List.map_cons]
      exact List.cons_eq_cons.mpr ⟨hab, ih bs h2⟩

theorem ciHeadMatch_getD (kw : List Char) :
    ∀ s m, ciHeadMatch kw s = true → m < kw.length →
      chEq (kw.getD m ' ') (s.getD m ' ') = true := by
  induction kw with
  | nil => intro s m _ hm; simp at hm
  | cons a as ih =>
    intro s m h hm
    cases s with
    | nil => simp [ciHeadMatch] at h
    | cons b bs =>
      simp only [ciHeadMatch, Bool.and_eq_true] at h
      cases m with
      | zero => simpa using h.1
      | succ m2 =>
        simp only [List.getD_cons_succ]
        exact ih bs m2 h.2 (by simpa using hm)

theorem getD_drop_char (l : List Char) (i m : Nat) (d : Char) :
    (l.drop i).getD m d = l.getD (i + m) d := by
  rw [List.getD_eq_getElem?_getD, List.getD_eq_getElem?_getD, List.getElem?_drop]

theorem matchAt_bound (p kw : List Char) (i : Nat) (hne : kw ≠ [])
    (h : matchAt p kw i = true) : i + kw.length ≤ p.length := by
  unfold matchAt at h
  simp only [Bool.and_eq_true] at h
  have h1 := ciHeadMatch_length kw _ h.1.1
  rw [List.length_drop] at h1
  have h2 : 0 < kw.length := List.length_pos.mpr hne
  omega

/-! ### The `exec` search: specification of `findMatchFrom` -/

theorem findMatchFromAux_some_spec (p kw : List Char) :
    ∀ fuel i j, findMatchFromAux p kw fuel i = some j →
      i ≤ j ∧ j ≤ p.length ∧ matchAt p kw j = true ∧
      ∀ k, i ≤ k → k < j → matchAt p kw k = false := by
  intro fuel
  induction fuel with
  | zero =>
    intro i j hf
    simp [findMatchFromAux] at hf
  | succ n ihn =>
    intro i j hf
    simp only [findMatchFromAux] at hf
    by_cases hi : i ≤ p.length
    · rw [if_pos hi] at hf
      by_cases hm : matchAt p kw i = true
      · rw [if_pos hm] at hf
        cases hf
        exact ⟨Nat.le_refl i, hi, hm, fun k hk1 hk2 => absurd hk2 (by omega)⟩
      · rw [if_neg hm] at hf
        obtain ⟨ha, hb, hc, hd⟩ := ihn (i + 1) j hf
        refine ⟨by omega, hb, hc, ?_⟩
        intro k hk1 hk2
        by_cases hk : k = i
        · subst hk
          exact Bool.eq_false_iff.mpr hm
        · exact hd k (by omega) hk2
    · rw [if_neg hi] at hf
      cases hf

theorem findMatchFrom_some_spec (p kw : List Char) (i j : Nat)
    (hf : findMatchFrom p kw i = some j) :
    i ≤ j ∧ j ≤ p.length ∧ matchAt p kw j = true ∧
    ∀ k, i ≤ k → k < j → matchAt p kw k = false :=
  findMatchFromAux_some_spec p kw _ i j hf

theorem findMatchFromAux_none_spec (p kw : List Char) :
    ∀ fuel i, p.length + 1 - i ≤ fuel → findMatchFromAux p kw fuel i = none →
      ∀ k, i ≤ k → k ≤ p.length → matchAt p kw k = false := by
  intro fuel
  induction fuel with
  | zero =>
    intro i hn _ k hk1 hk2
    omega
  | succ n ihn =>
    intro i hn hf k hk1 hk2
    simp only [findMatchFromAux] at hf
    by_cases hi : i ≤ p.length
    · rw [if_pos hi] at hf
      by_cases hm : matchAt p kw i = true
      · rw [if_pos hm] at hf
        cases hf
      · rw [if_neg hm] at hf
        by_cases hk : k = i
        · subst hk
          exact Bool.eq_false_iff.mpr hm
        · exact ihn (i + 1) (by omega) hf k (by omega) hk2
    · omega

theorem findMatchFrom_none_spec (p kw : List Char) (i : Nat)
    (hf : findMatchFrom p kw i = none) :
    ∀ k, i ≤ k → k ≤ p.length → matchAt p kw k = false :=
  findMatchFromAux_none_spec p kw (p.length + 1 - i) i (Nat.le_refl _) hf

/-! ### No two matches of a word-character keyword within a keyword length
of each other: the `lastIndex` advancement of the `g` flag skips nothing -/

theorem matchAt_gap (p kw : List Char) (hw : ∀ c ∈ kw, isWordChar c = true)
    (j k : Nat) (hj : matchAt p kw j = true) (hk1 : j < k)
    (hk2 : k < j + kw.length) : matchAt p kw k = false := by
  by_contra hcon
  rw [Bool.not_eq_false] at hcon
  unfold matchAt at hj hcon
  simp only [Bool.and_eq_true] at hj hcon
  obtain ⟨⟨hcij, _⟩, _⟩ := hj
  obtain ⟨⟨_, hnbk⟩, _⟩ := hcon
  have hmlt : k - 1 - j < kw.length := by omega
  have hch := ciHeadMatch_getD kw (p.drop j) (k - 1 - j) hcij hmlt
  rw [getD_drop_char] at hch
  have hjm : j + (k - 1 - j) = k - 1 := by omega
  rw [hjm] at hch
  have hkwmem : kw.getD (k - 1 - j) ' ' ∈ kw := by
    rw [List.getD_eq_getElem _ _ hmlt]
    exact List.getElem_mem hmlt
  have hwordp : isWordChar (p.getD (k - 1) ' ') = true := by
    rw [← chEq_isWordChar _ _ hch]
    exact hw _ hkwmem
  unfold noWordBefore at hnbk
  have hnbk2 : (k == 0) = true ∨ (!isWordChar (p.getD (k - 1) ' ')) = true := by
    simpa using hnbk
  rcases hnbk2 with h0 | hneg
  · have : k = 0 := by simpa using h0
    omega
  · rw [hwordp] at hneg
    simp at hneg

/-! ### Soundness of the scan loop -/

theorem scanLoop_sound (p kw : List Char) (cat : String) :
    ∀ fuel i o, o ∈ scanLoop p kw cat fuel i →
      ∃ j, matchAt p kw j = true ∧ i ≤ j ∧ o = mkOcc p kw cat j := by
  intro fuel
  induction fuel with
  | zero => intro i o ho; simp [scanLoop] at ho
  | succ n ih =>
    intro i o ho
    cases hf : findMatchFrom p kw i with
    | none =>
      simp only [scanLoop, hf] at ho
      cases ho
    | some j =>
      simp only [scanLoop, hf, List.mem_cons] at ho
      obtain ⟨hij, _, hmj, _⟩ := findMatchFrom_some_spec p kw i j hf
      rcases ho with rfl | ho2
      · exact ⟨j, hmj, hij, rfl⟩
      · obtain ⟨j2, hm2, hle2, rfl⟩ := ih (j + kw.length) o ho2
        exact ⟨j2, hm2, by omega, rfl⟩

/-! ### Completeness of the scan loop: with enough fuel, the `exec` loop
emits exactly the matches, in order -/

theorem scanLoop_eq_filter (p kw : List Char) (cat : String) (hne : kw ≠ [])
    (hw : ∀ c ∈ kw, isWordChar c = true) :
    ∀ fuel i, p.length + 1 ≤ fuel + i →
      scanLoop p kw cat fuel i =
        ((List.range (p.length + 1)).filter
          (fun j => decide (i ≤ j) && matchAt p kw j)).map (mkOcc p kw cat) := by
  intro fuel
  induction fuel with
  | zero =>
    intro i hn
    have hfilter : (List.range (p.length + 1)).filter
        (fun j => decide (i ≤ j) && matchAt p kw j) = [] := by
      rw [List.filter_eq_nil_iff]
      intro j hj
      rw [List.mem_range] at hj
      simp only [Bool.and_eq_true, decide_eq_true_eq, not_and]
      intro hij
      exact absurd hij (by omega)
    rw [hfilter]
    simp [scanLoop]
  | succ n ih =>
    intro i hn
    have hkpos : 0 < kw.length := List.length_pos.mpr hne
    cases hf : findMatchFrom p kw i with
    | none =>
      have hspec := findMatchFrom_none_spec p kw i hf
      have hfilter : (List.range (p.length + 1)).filter
          (fun j => decide (i ≤ j) && matchAt p kw j) = [] := by
        rw [List.filter_eq_nil_iff]
        intro j hj
        rw [List.mem_range] at hj
        simp only [Bool.and_eq_true, decide_eq_true_eq, not_and]
        intro hij
        rw [hspec j hij (by omega)]
        simp
      simp [scanLoop, hf, hfilter]
    | some j =>
      obtain ⟨hij, hjle, hmj, hleast⟩ := findMatchFrom_some_spec p kw i j hf
      obtain ⟨d, hd⟩ : ∃ d, p.length + 1 = j + (d + 1) := ⟨p.length - j, by omega⟩
      have hsplit : (List.range (p.length + 1)).filter
          (fun k => decide (i ≤ k) && matchAt p kw k) =
          j :: (List.range (p.length + 1)).filter
            (fun k => decide (j + kw.length ≤ k) && matchAt p kw k) := by
      -- split the range at `j`: before `j` nothing passes either filter, at
      -- `j` only the first filter passes, after `j` the two filters agree
      -- because there is no match within `kw.length` of the match at `j`
        rw [hd, List.range_add, List.filter_append, List.filter_append]
        have hpre1 : (List.range j).filter
            (fun k => decide (i ≤ k) && matchAt p kw k) = [] := by
          rw [List.filter_eq_nil_iff]
          intro k hk
          rw [List.mem_range] at hk
          simp only [Bool.and_eq_true, decide_eq_true_eq, not_and]
          intro hik
          rw [hleast k hik hk]
          simp
        have hpre2 : (List.range j).filter
            (fun k => decide (j + kw.length ≤ k) && matchAt p kw k) = [] := by
          rw [List.filter_eq_nil_iff]
          intro k hk
          rw [List.mem_range] at hk
          simp only [Bool.and_eq_true, decide_eq_true_eq, not_and]
          intro hik
          exact absurd hik (by omega)
        rw [hpre1, hpre2]
        simp only [List.nil_append]
        rw [List.range_succ_eq_map]
        simp only [List.map_cons]
        rw [List.filter_cons, List.filter_cons]
        have hq1 : (decide (i ≤ j + 0) && matchAt p kw (j + 0)) = true := by
          simp only [Nat.add_zero]
          simp [hij, hmj]
        have hq2 : ¬((decide (j + kw.length ≤ j + 0) && matchAt p kw (j + 0)) = true) := by
          simp only [Bool.and_eq_true, decide_eq_true_eq, not_and]
          intro hik
          exact absurd hik (by omega)
        rw [if_pos hq1, if_neg hq2]
        simp only [Nat.add_zero]
        congr 1
        apply List.filter_congr
        intro x hx
        simp only [List.mem_map, List.mem_range] at hx
        obtain ⟨a, ⟨b, hb, rfl⟩, rfl⟩ := hx
        by_cases hxl : b + 1 < kw.length
        · have hgap := matchAt_gap p kw hw j (j + (b + 1)) hmj (by omega) (by omega)
          simp only [Nat.succ_eq_add_one]
          simp [hgap]
        · have h1 : i ≤ j + (b + 1) := by omega
          have h2 : j + kw.length ≤ j + (b + 1) := by omega
          simp only [Nat.succ_eq_add_one]
          simp [h1, h2]
      simp only [scanLoop, hf]
      rw [hsplit, List.map_cons]
      congr 1
      exact ih (j + kw.length) (by omega)

/-- C4: for a non-empty keyword of word characters, the scanner finds
exactly the whole-word, case-insensitive occurrences of the keyword — the
emitted occurrences are precisely the positions where `\bkw\b` matches
(`matchAt`: keyword present case-insensitively, no word character adjacent
on either side), in order; each occurrence records the original-casing
substring of the prompt, equal to the lookup keyword only up to letter
case; and every such occurrence is collected by the whole scanner for
every category listing the keyword. -/
theorem c4_scanner_whole_word (p kw : List Char) (cat : String)
    (hne : kw ≠ []) (hw : ∀ c ∈ kw, isWordChar c = true) :
    scanKeyword p kw cat =
      ((List.range (p.length + 1)).filter (fun i => matchAt p kw i)).map
        (mkOcc p kw cat) ∧
    (∀ o ∈ scanKeyword p kw cat,
      o.keyword = (p.drop o.startIndex).take kw.length ∧
      o.keyword.map Char.toLower = kw.map Char.toLower ∧
      o.category = cat) ∧
    (∀ (fs : List (String × List (List Char))) (kws : List (List Char)),
      (cat, kws) ∈ fs → kw ∈ kws →
      ∀ o ∈ scanKeyword p kw cat, o ∈ scanOccurrences p fs) := by
  refine ⟨?_, ?_, ?_⟩
  · unfold scanKeyword
    rw [scanLoop_eq_filter p kw cat hne hw (p.length + 1) 0 (by omega)]
    congr 1
    apply List.filter_congr
    intro x _
    simp
  · intro o ho
    obtain ⟨j, hm, _, rfl⟩ := scanLoop_sound p kw cat _ _ _ ho
    unfold matchAt at hm
    simp only [Bool.and_eq_true] at hm
    exact ⟨rfl, ciHeadMatch_toLower kw _ hm.1.1, rfl⟩
  · intro fs kws hfs hkw o ho
    unfold scanOccurrences
    refine List.mem_flatMap.mpr ⟨(cat, kws), hfs, ?_⟩
    refine List.mem_flatMap.mpr ⟨kw, hkw, ?_⟩
    rw [if_pos (List.length_pos.mpr hne)]
    exact ho

/-- Witness for C4: the spec's example — in
`"A cat sitting near a category sign"` the keyword `"cat"` matches exactly
once, at the whole word `"cat"`, and not inside `"category"`. -/
theorem c4_witness :
    scanKeyword "A cat sitting near a category sign".toList "cat".toList "subject" =
      ((List.range ("A cat sitting near a category sign".toList.length + 1)).filter
        (fun i => matchAt "A cat sitting near a category sign".toList "cat".toList i)).map
        (mkOcc "A cat sitting near a category sign".toList "cat".toList "subject") ∧
    scanKeyword "A cat sitting near a category sign".toList "cat".toList "subject" =
      [⟨"cat".toList, "subject", 2, 5⟩] := by
  refine ⟨(c4_scanner_whole_word
    "A cat sitting near a category sign".toList "cat".toList "subject"
    (by decide) (by decide)).1, by decide⟩

/-- C10: every occurrence the scanner emits for a non-empty word-character
keyword is in bounds and internally consistent:
`startIndex < endIndex ≤ length p`, `endIndex = startIndex + length kw`,
the recorded `keyword` field is the prompt substring
`[startIndex, endIndex)`, and it equals the lookup keyword up to letter
case. -/
theorem c10_scanner_occurrence_valid (p kw : List Char) (cat : String)
    (hne : kw ≠ []) (hw : ∀ c ∈ kw, isWordChar c = true) :
    ∀ o ∈ scanKeyword p kw cat,
      o.startIndex < o.endIndex ∧ o.endIndex ≤ p.length ∧
      o.endIndex = o.startIndex + kw.length ∧
      o.keyword = (p.drop o.startIndex).take (o.endIndex - o.startIndex) ∧
      o.keyword.map Char.toLower = kw.map Char.toLower := by
  intro o ho
  obtain ⟨j, hm, _, rfl⟩ := scanLoop_sound p kw cat _ _ _ ho
  have hb := matchAt_bound p kw j hne hm
  have hkpos : 0 < kw.length := List.length_pos.mpr hne
  have hci : ciHeadMatch kw (p.drop j) = true := by
    unfold matchAt at hm
    simp only [Bool.and_eq_true] at hm
    exact hm.1.1
  refine ⟨?_, ?_, rfl, ?_, ?_⟩
  · show j < j + kw.length
    omega
  · exact hb
  · show (p.drop j).take kw.length = (p.drop j).take (j + kw.length - j)
    congr 1
    omega
  · exact ciHeadMatch_toLower kw _ hci

/-- Witness for C10: an occurrence with original casing `"Cat"` found for
the lookup keyword `"cat"`, with consistent bounds. -/
theorem c10_witness :
    (⟨['C', 'a', 't'], "subject", 0, 3⟩ : Occurrence) ∈
      scanKeyword "Cat nap".toList "cat".toList "subject" ∧
    ['C', 'a', 't'].map Char.toLower = "cat".toList.map Char.toLower := by
  refine ⟨by decide, ?_⟩
  have h := c10_scanner_occurrence_valid "Cat nap".toList "cat".toList "subject"
    (by decide) (by decide) ⟨['C', 'a', 't'], "subject", 0, 3⟩ (by decide)
  exact h.2.2.2.2

end VisionCrafter
